import Mathlib

/-!
# RustySwift: the C boundary header and the request dispatcher behind it

The repository's source is the header `librustyswift.h`, the C-notation
blueprint of the Rust static library that Swift calls into.

* Part I embeds the header line by line and settles what the header itself
  decides: the shape of the entry point `fetch_weather` and of the callback
  type, which entry points exist, and how the text payloads are typed.
* Part II follows one request, then any number of requests in flight at once,
  through the dispatcher behind `fetch_weather`.
  The body of `fetch_weather` lives in the Rust `ffi` crate, so its
  definitions are taken from the interface description (`Submit`, `Complete`,
  the pending-operation table) and are marked as such.

Definitions come first, lemmas and theorems after them.
-/

namespace RustySwift

/-! ## Part I: the header `librustyswift.h` -/

/-- Object types a parameter or a return type of a C declaration is built from. -/
inductive CType where
  | void
  | char
  | int
  | sizeT
  | stdint (name : String)
  | const (t : CType)
  | pointer (t : CType)
  | typedefName (name : String)
  deriving DecidableEq, Repr

/-- One parameter of a C function declarator: its declared type and its name. -/
structure Param where
  ty : CType
  name : String
  deriving DecidableEq, Repr

/-- A C function type: the return type and the parameters in order. -/
structure Signature where
  returns : CType
  params : List Param
  deriving DecidableEq, Repr

/-- The lines of a header, one constructor per kind of line. -/
inductive Item where
  | includeDirective (file : String)
  | ifdefCplusplus
  | endifDirective
  | linkageOpen
  | linkageClose
  | comment (text : String)
  | typedefDecl (name : String) (sig : Signature)
  | functionDecl (name : String) (sig : Signature)
  deriving DecidableEq, Repr

/-- The header `src/swift/Rust Bits/librustyswift.h`, its non-blank lines in order. -/
def librustyswift_h : List Item :=
  [ .includeDirective "stdint.h",
    .ifdefCplusplus,
    .linkageOpen,
    .endifDirective,
    .comment " This header serves as a blueprint for the Rust binary `librustyswift.a`. It",
    .comment " re-defines the public functions and types in `librustyswift.a` in C notation",
    .comment " and makes them callable from Swift. It is important that these definitions",
    .comment " match their Rust counterparts in the `ffi` crate.",
    .comment "",
    .comment " types",
    .typedefDecl "ResponseCallbackWithContext"
      ⟨.void, [⟨.pointer (.const .char), "response_json"⟩, ⟨.pointer .void, "context"⟩]⟩,
    .comment " weather",
    .functionDecl "fetch_weather"
      ⟨.void, [⟨.pointer (.const .char), "request_json"⟩,
               ⟨.typedefName "ResponseCallbackWithContext", "callback"⟩,
               ⟨.pointer .void, "context"⟩]⟩,
    .ifdefCplusplus,
    .linkageClose,
    .endifDirective ]

/-- The non-blank lines of the header as they stand in the file. -/
def sourceLines : List String :=
  [ "#include <stdint.h>",
    "#ifdef __cplusplus",
    "extern \x22C\x22 \x7b",
    "#endif",
    "// This header serves as a blueprint for the Rust binary `librustyswift.a`. It",
    "// re-defines the public functions and types in `librustyswift.a` in C notation",
    "// and makes them callable from Swift. It is important that these definitions",
    "// match their Rust counterparts in the `ffi` crate.",
    "//",
    "// types",
    "typedef void (ResponseCallbackWithContext)(const char *response_json, void *context);",
    "// weather",
    "extern void fetch_weather(const char* request_json, ResponseCallbackWithContext callback, void *context);",
    "#ifdef __cplusplus",
    "\x7d",
    "#endif" ]

/-- C text of a type used as a declaration specifier with its pointer stars. -/
def renderType : CType → String
  | .void => "void"
  | .char => "char"
  | .int => "int"
  | .sizeT => "size_t"
  | .stdint n => n
  | .const t => "const " ++ renderType t
  | .pointer t => renderType t ++ " *"
  | .typedefName n => n

/-- C text of one parameter. -/
def renderParam (p : Param) : String :=
  match p.ty with
  | .pointer t => renderType t ++ " *" ++ p.name
  | t => renderType t ++ " " ++ p.name

/-- C text of a parameter list, without the parentheses. -/
def renderParams (ps : List Param) : String :=
  ", ".intercalate (ps.map renderParam)

/-- C text of one line of the header. -/
def renderItem : Item → String
  | .includeDirective f => "#include <" ++ f ++ ">"
  | .ifdefCplusplus => "#ifdef __cplusplus"
  | .endifDirective => "#endif"
  | .linkageOpen => "extern \x22C\x22 \x7b"
  | .linkageClose => "\x7d"
  | .comment t => "//" ++ t
  | .typedefDecl n s =>
      "typedef " ++ renderType s.returns ++ " (" ++ n ++ ")(" ++ renderParams s.params ++ ");"
  | .functionDecl n s =>
      "extern " ++ renderType s.returns ++ " " ++ n ++ "(" ++ renderParams s.params ++ ");"

/-- A line with its blanks removed: the header writes `char *x` and `char* x` alike. -/
def squeeze (s : String) : List Char :=
  s.toList.filter fun c => c != Char.ofNat 32

/-- The functions the header declares, by name. -/
def declaredFunctions : List Item → List (String × Signature)
  | [] => []
  | .functionDecl n s :: rest => (n, s) :: declaredFunctions rest
  | _ :: rest => declaredFunctions rest

/-- The function types the header names with a typedef. -/
def declaredTypedefs : List Item → List (String × Signature)
  | [] => []
  | .typedefDecl n s :: rest => (n, s) :: declaredTypedefs rest
  | _ :: rest => declaredTypedefs rest

/-- The comment lines of the header. -/
def comments : List Item → List String
  | [] => []
  | .comment t :: rest => t :: comments rest
  | _ :: rest => comments rest

/-- What an argument is to the boundary, in the words of the interface description. -/
inductive Slot where
  | stringReference
  | opaquePointer
  | other
  deriving DecidableEq, Repr

/-- Shape of a callback type: its arguments in order, and whether it returns a value. -/
structure CallbackShape where
  args : List Slot
  returnsValue : Bool
  deriving DecidableEq, Repr

/-- One argument of an entry point: a plain value or a callback reference. -/
inductive ArgShape where
  | slot (s : Slot)
  | callback (c : CallbackShape)
  deriving DecidableEq, Repr

/-- Shape of an entry point: its arguments in order, and whether it returns a value. -/
structure EntryShape where
  args : List ArgShape
  returnsValue : Bool
  deriving DecidableEq, Repr

/-- The interface description's entry point, `submit_request(request_text: read-only string
reference, callback: function(response_text: owned string reference, context: opaque
pointer) -> void, context: opaque pointer) -> void`, as a shape: which argument is a string
reference, which a callback, which an opaque pointer.  Whether a reference is read-only is
not part of the shape; `readOnlyReference` reads it off the C type. -/
def submit_request : EntryShape :=
  { args := [ .slot .stringReference,
              .callback { args := [.stringReference, .opaquePointer], returnsValue := false },
              .slot .opaquePointer ],
    returnsValue := false }

/-- A pointer to characters is a string reference, a pointer to void an opaque pointer. -/
def slotOf : CType → Slot
  | .pointer (.const .char) => .stringReference
  | .pointer .char => .stringReference
  | .pointer .void => .opaquePointer
  | _ => .other

/-- A reference the callee may only read: a pointer whose pointee is const. -/
def readOnlyReference : CType → Bool
  | .pointer (.const _) => true
  | _ => false

/-- Shape of a function type used as a callback. -/
def callbackShape (sig : Signature) : CallbackShape :=
  { args := sig.params.map fun p => slotOf p.ty,
    returnsValue := sig.returns != .void }

/-- Shape of one parameter: a parameter whose type is a typedef of a function type is a
reference to such a function (C adjusts it to a pointer), anything else is a plain value. -/
def argShape (h : List Item) (p : Param) : ArgShape :=
  match p.ty with
  | .typedefName n =>
      match (declaredTypedefs h).lookup n with
      | some sig => .callback (callbackShape sig)
      | none => .slot .other
  | t => .slot (slotOf t)

/-- Shape of a declared function. -/
def entryShape (h : List Item) (sig : Signature) : EntryShape :=
  { args := sig.params.map (argShape h),
    returnsValue := sig.returns != .void }

/-- Names of the entry points: the functions the header declares. -/
def entryPoints (h : List Item) : List String :=
  (declaredFunctions h).map fun d => d.1

/-- A function that is handed a payload: one of its parameters is a pointer to characters
or to void. -/
def takesBuffer (sig : Signature) : Bool :=
  sig.params.any fun p => slotOf p.ty != .other

/-- The entry points beside `submit` that are handed a buffer, which a routine releasing a
response payload has to be. -/
def deallocationEntryPoints (h : List Item) (submit : String) : List String :=
  ((declaredFunctions h).filter fun d => d.1 != submit && takesBuffer d.2).map fun d => d.1

/-- Type of the request payload: the first parameter of `fetch_weather`. -/
def requestPayloadType (h : List Item) : Option CType :=
  match (declaredFunctions h).lookup "fetch_weather" with
  | some sig => sig.params.head?.map fun p => p.ty
  | none => none

/-- Type of the response payload: the first parameter of `ResponseCallbackWithContext`. -/
def responsePayloadType (h : List Item) : Option CType :=
  match (declaredTypedefs h).lookup "ResponseCallbackWithContext" with
  | some sig => sig.params.head?.map fun p => p.ty
  | none => none

/-- An integer type, which a length passed beside a buffer would have. -/
def isLengthType : CType → Bool
  | .int => true
  | .sizeT => true
  | .stdint _ => true
  | .const t => isLengthType t
  | _ => false

/-- The signatures of the header, of functions and of typedefs alike. -/
def signatures (h : List Item) : List Signature :=
  (declaredFunctions h ++ declaredTypedefs h).map fun d => d.2

/-- Some signature of the header passes an integer, so could pass a length. -/
def passesLength (h : List Item) : Bool :=
  (signatures h).any fun sig => sig.params.any fun p => isLengthType p.ty

/-- Whether `w` occurs in `t` as a run of consecutive characters. -/
def occursIn (w : List Char) : List Char → Bool
  | [] => w.isEmpty
  | c :: cs => w.isPrefixOf (c :: cs) || occursIn w cs

/-- Words a comment that says how a text payload is bounded would use, in lower case. -/
def boundingWords : List String :=
  ["null", "nul-", "terminat", "length", "size", "bound", "byte", "c string", "cstring"]

/-- Some comment of the header says how the text payloads are bounded. -/
def documentsBounding (h : List Item) : Bool :=
  (comments h).any fun c =>
    boundingWords.any fun w => occursIn w.toList (c.toList.map Char.toLower)

/-! ## Part II: the dispatcher behind `fetch_weather`

The header declares `fetch_weather` and leaves its body to the Rust `ffi` crate.  The
definitions below follow the dispatcher design of the interface description: `Submit`,
`Complete` and the pending-operation table. -/

/-- Modelled from the spec: the structured error value, an error kind and a human-readable
message (the Rust `ffi` crate that builds it is not in the sources). -/
structure ErrorValue where
  kind : String
  message : String
  deriving DecidableEq, Repr

/-- Modelled from the spec: the result of a request, a success value or an error
description (the Rust `ffi` crate that builds it is not in the sources). -/
inductive Outcome (σ : Type) where
  | success (value : σ)
  | failure (error : ErrorValue)
  deriving DecidableEq, Repr

/-- Modelled from the spec: the excluded JSON library, a deserialize capability for
request payloads and a serialize capability for results. -/
structure Codec (ρ σ : Type) where
  decode : String → Option ρ
  serialize : Outcome σ → String

/-- Modelled from the spec: the error a request payload that does not decode is answered
with, of kind `decode_failure` (the Rust `ffi` crate that builds it is not in the sources). -/
def decodeFailure : ErrorValue :=
  { kind := "decode_failure", message := "request payload is not valid structured data" }

/-- Modelled from the spec: the pending-operation record, the callback handle and the
opaque context of one in-flight request. -/
structure PendingRecord (γ : Type) where
  callback : Nat
  context : γ
  deriving DecidableEq, Repr

/-- Modelled from the spec: one invocation of a foreign callback, with the response payload
and the context it was passed; `operation` records which completion made it. -/
structure Invocation (γ : Type) where
  operation : Nat
  callback : Nat
  response_json : String
  context : γ
  deriving DecidableEq, Repr

/-- Modelled from the spec: the asynchronous work scheduled for a request, the excluded
weather fetch for a decoded request, or the delivery of the decode error. -/
inductive Work (ρ : Type) where
  | fetch (request : ρ)
  | reportDecodeFailure
  deriving DecidableEq, Repr

/-- Modelled from the spec: the dispatcher's state (the Rust `ffi` crate is not in the
sources).  Completion handles are handed out from the counter `nextHandle`; `scheduled` is
the asynchronous work on the dispatcher's runtime, `pending` the pending-operation table,
both keyed by completion handle; `invocations` lists the callback invocations made so far,
oldest first. -/
structure Dispatcher (ρ γ : Type) where
  nextHandle : Nat
  scheduled : List (Nat × Work ρ)
  pending : List (Nat × PendingRecord γ)
  invocations : List (Invocation γ)

/-- Modelled from the spec: the fatal internal-consistency violations. -/
inductive Fatal where
  | noMatchingRecord
  | notInFlight
  deriving DecidableEq, Repr

/-- Modelled from the spec: the dispatcher before any request. -/
def Dispatcher.init {ρ γ : Type} : Dispatcher ρ γ :=
  { nextHandle := 0, scheduled := [], pending := [], invocations := [] }

/-- Modelled from the spec: `Submit`, the body of the entry point `fetch_weather` (the
Rust `ffi` crate is not in the sources).  It decodes the payload, schedules the fetch or
the delivery of the decode error on the same asynchronous path, registers exactly one
pending-operation record under the operation's completion handle, and returns. -/
def fetch_weather {ρ σ γ : Type} (c : Codec ρ σ) (d : Dispatcher ρ γ)
    (request_json : String) (callback : Nat) (context : γ) : Dispatcher ρ γ :=
  let work : Work ρ :=
    match c.decode request_json with
    | some request => .fetch request
    | none => .reportDecodeFailure
  { d with
    nextHandle := d.nextHandle + 1
    scheduled := d.scheduled ++ [(d.nextHandle, work)]
    pending := d.pending ++ [(d.nextHandle, { callback := callback, context := context })] }

/-- Modelled from the spec: `Complete`.  It serializes the result, looks up and removes the
matching pending-operation record, and invokes the record's callback with the payload and
the context; a missing record is fatal. -/
def complete {ρ σ γ : Type} (c : Codec ρ σ) (d : Dispatcher ρ γ)
    (operationHandle : Nat) (result : Outcome σ) : Except Fatal (Dispatcher ρ γ) :=
  let payload := c.serialize result
  match d.pending.lookup operationHandle with
  | none => .error .noMatchingRecord
  | some record =>
      .ok { d with
            pending := d.pending.filter fun e => e.1 != operationHandle
            invocations := d.invocations ++
              [{ operation := operationHandle, callback := record.callback,
                 response_json := payload, context := record.context }] }

/-- Modelled from the spec: the result a piece of scheduled work completes with, the
domain operation's own for a fetch, the decode error otherwise. -/
def resultOf {ρ σ : Type} (w : Work ρ) (domainResult : Outcome σ) : Outcome σ :=
  match w with
  | .fetch _ => domainResult
  | .reportDecodeFailure => .failure decodeFailure

/-- Modelled from the spec: the runtime finishing the scheduled operation `handle`; the
operation leaves the runtime and `Complete` runs with its result. -/
def finish {ρ σ γ : Type} (c : Codec ρ σ) (d : Dispatcher ρ γ)
    (handle : Nat) (domainResult : Outcome σ) : Except Fatal (Dispatcher ρ γ) :=
  match d.scheduled.lookup handle with
  | none => .error .notInFlight
  | some w =>
      complete c { d with scheduled := d.scheduled.filter fun e => e.1 != handle }
        handle (resultOf w domainResult)

/-- Modelled from the spec: what can happen to the dispatcher, a call of the entry point
or the completion of a scheduled operation, in any order. -/
inductive Event (σ γ : Type) where
  | submit (request_json : String) (callback : Nat) (context : γ)
  | finish (handle : Nat) (domainResult : Outcome σ)

/-- Modelled from the spec: one event applied to the dispatcher. -/
def step {ρ σ γ : Type} (c : Codec ρ σ) (d : Dispatcher ρ γ) :
    Event σ γ → Except Fatal (Dispatcher ρ γ)
  | .submit request_json callback context => .ok (fetch_weather c d request_json callback context)
  | .finish handle domainResult => finish c d handle domainResult

/-- Modelled from the spec: a sequence of events applied in order; a fatal violation ends
the process. -/
def run {ρ σ γ : Type} (c : Codec ρ σ) : Dispatcher ρ γ → List (Event σ γ) →
    Except Fatal (Dispatcher ρ γ)
  | d, [] => .ok d
  | d, e :: es =>
      match step c d e with
      | .ok d' => run c d' es
      | .error f => .error f

/-- Modelled from the spec: every operation still scheduled finishes, in the order given,
with the domain result the oracle names for it. -/
def drainEvents {ρ σ γ : Type} (oracle : Nat → Outcome σ) (d : Dispatcher ρ γ) :
    List (Event σ γ) :=
  d.scheduled.map fun e => Event.finish e.1 (oracle e.1)

/-- The invocations that completed operation `h`. -/
def invocationsOf {ρ γ : Type} (d : Dispatcher ρ γ) (h : Nat) : List (Invocation γ) :=
  d.invocations.filter fun i => i.operation == h

/-- Where the request accepted under handle `h` with `callback` and `context` stands:
either its operation is still scheduled, its record is in the table and nothing was invoked
for it, or operation and record are gone and exactly one invocation was made for it, of
that callback with that context and a serialized result. -/
def Tracked {ρ σ γ : Type} (c : Codec ρ σ) (h callback : Nat) (context : γ)
    (d : Dispatcher ρ γ) : Prop :=
  h < d.nextHandle ∧
  ((∃ w, d.scheduled.lookup h = some w
      ∧ d.pending.lookup h = some { callback := callback, context := context }
      ∧ invocationsOf d h = [])
   ∨ (d.scheduled.lookup h = none ∧ d.pending.lookup h = none
      ∧ ∃ r : Outcome σ, invocationsOf d h =
          [{ operation := h, callback := callback, response_json := c.serialize r,
             context := context }]))

/-- The bookkeeping of the dispatcher is consistent: the table holds one record per
scheduled operation, handles are not reused, and every handle in use is below the next. -/
def WellFormed {ρ γ : Type} (d : Dispatcher ρ γ) : Prop :=
  d.pending.map Prod.fst = d.scheduled.map Prod.fst
  ∧ (d.scheduled.map Prod.fst).Nodup
  ∧ (∀ k ∈ d.scheduled.map Prod.fst, k < d.nextHandle)
  ∧ (∀ i ∈ d.invocations, i.operation < d.nextHandle)

/-- The context of a pending record seen through `f`. -/
def PendingRecord.mapContext {γ δ : Type} (f : γ → δ) (r : PendingRecord γ) :
    PendingRecord δ :=
  { callback := r.callback, context := f r.context }

/-- The context of an invocation seen through `f`. -/
def Invocation.mapContext {γ δ : Type} (f : γ → δ) (i : Invocation γ) : Invocation δ :=
  { operation := i.operation, callback := i.callback, response_json := i.response_json,
    context := f i.context }

/-- Every context held or passed by the dispatcher seen through `f`. -/
def Dispatcher.mapContext {ρ γ δ : Type} (f : γ → δ) (d : Dispatcher ρ γ) : Dispatcher ρ δ :=
  { nextHandle := d.nextHandle
    scheduled := d.scheduled
    pending := d.pending.map fun e => (e.1, e.2.mapContext f)
    invocations := d.invocations.map (Invocation.mapContext f) }

/-- The context of an event seen through `f`. -/
def Event.mapContext {σ γ δ : Type} (f : γ → δ) : Event σ γ → Event σ δ
  | .submit request_json callback context => .submit request_json callback (f context)
  | .finish handle domainResult => .finish handle domainResult

/-- A codec for evaluation: a request is any payload that opens with a brace, and a result
is written as its kind followed by its text. -/
def sampleCodec : Codec String String :=
  { decode := fun s => if s.toList.head? = some (Char.ofNat 123) then some s else none
    serialize := fun r =>
      match r with
      | .success v => "ok:" ++ v
      | .failure e => "error:" ++ e.kind ++ ":" ++ e.message }

/-- The dispatcher after the payload `not-json`, submitted with callback 7 and context 42,
was answered. -/
def sampleAnswered : Dispatcher String Nat :=
  { nextHandle := 1
    scheduled := []
    pending := []
    invocations :=
      [{ operation := 0, callback := 7,
         response_json := "error:decode_failure:request payload is not valid structured data",
         context := 42 }] }

/-- A request payload the sample codec decodes, `\x7b"location":"Seattle"\x7d`. -/
def seattleRequest : String := "\x7b\x22location\x22:\x22Seattle\x22\x7d"

/-- A request payload the sample codec decodes, `\x7b"location":"Oslo"\x7d`. -/
def osloRequest : String := "\x7b\x22location\x22:\x22Oslo\x22\x7d"

/-- Two requests in flight at once, the second finishing first. -/
def sampleInterleaving : List (Event String Nat) :=
  [ .submit osloRequest 8 43,
    .finish 1 (.failure { kind := "upstream_unavailable", message := "no route to host" }),
    .finish 0 (.success "rain") ]

/-- The dispatcher after `sampleInterleaving` ran on top of the Seattle request, which was
submitted with callback 7 and context 42. -/
def sampleBothAnswered : Dispatcher String Nat :=
  { nextHandle := 2
    scheduled := []
    pending := []
    invocations :=
      [ { operation := 1, callback := 8,
          response_json := "error:upstream_unavailable:no route to host", context := 43 },
        { operation := 0, callback := 7, response_json := "ok:rain", context := 42 } ] }

/-- The requests a sequence of events submits, oldest first, each as the callback and the
context it was submitted with. -/
def submittedRequests {σ γ : Type} : List (Event σ γ) → List (PendingRecord γ)
  | [] => []
  | .submit _ callback context :: es =>
      { callback := callback, context := context } :: submittedRequests es
  | .finish _ _ :: es => submittedRequests es

/-- The contexts the dispatcher has passed to callbacks so far, oldest first. -/
def passedContexts {ρ γ : Type} (d : Dispatcher ρ γ) : List γ :=
  d.invocations.map fun i => i.context

/-- The contexts the dispatcher still holds in its pending-operation table. -/
def heldContexts {ρ γ : Type} (d : Dispatcher ρ γ) : List γ :=
  d.pending.map fun e => e.2.context

/-- Two requests in flight at once that were submitted with one and the same context, 5,
the second finishing first. -/
def sharedContextEvents : List (Event String Nat) :=
  [ .submit seattleRequest 7 5,
    .submit osloRequest 8 5,
    .finish 1 (.success "snow"),
    .finish 0 (.success "rain") ]

/-- The dispatcher after `sharedContextEvents`. -/
def sharedContextAnswered : Dispatcher String Nat :=
  { nextHandle := 2
    scheduled := []
    pending := []
    invocations :=
      [ { operation := 1, callback := 8, response_json := "ok:snow", context := 5 },
        { operation := 0, callback := 7, response_json := "ok:rain", context := 5 } ] }

/-- Two requests in flight at once with contexts of their own, the second finishing first. -/
def distinctContextEvents : List (Event String Nat) :=
  [ .submit seattleRequest 7 42,
    .submit osloRequest 8 43,
    .finish 1 (.success "snow"),
    .finish 0 (.failure { kind := "timeout", message := "no answer in time" }) ]

/-- The dispatcher after `distinctContextEvents`. -/
def distinctContextAnswered : Dispatcher String Nat :=
  { nextHandle := 2
    scheduled := []
    pending := []
    invocations :=
      [ { operation := 1, callback := 8, response_json := "ok:snow", context := 43 },
        { operation := 0, callback := 7, response_json := "error:timeout:no answer in time",
          context := 42 } ] }

/-! ## Lemmas on association lists -/

theorem lookup_cons_self {α : Type} (l : List (Nat × α)) (k : Nat) (v : α) :
    ((k, v) :: l).lookup k = some v := by
  rw [List.lookup_cons]
  have hb : (k == k) = true := beq_self_eq_true k
  rw [hb]

theorem lookup_cons_ne {α : Type} (l : List (Nat × α)) (k a : Nat) (v : α) (h : k ≠ a) :
    ((a, v) :: l).lookup k = l.lookup k := by
  rw [List.lookup_cons]
  have hb : (k == a) = false := beq_false_of_ne h
  rw [hb]

theorem filter_key_cons_self {α : Type} (l : List (Nat × α)) (k : Nat) (v : α) :
    ((k, v) :: l).filter (fun e => e.1 != k) = l.filter (fun e => e.1 != k) := by
  apply List.filter_cons_of_neg
  simp

theorem filter_key_cons_ne {α : Type} (l : List (Nat × α)) (k a : Nat) (v : α) (h : a ≠ k) :
    ((a, v) :: l).filter (fun e => e.1 != k) = (a, v) :: l.filter (fun e => e.1 != k) := by
  apply List.filter_cons_of_pos
  simpa using h

theorem lookup_append_single_ne {α : Type} (l : List (Nat × α)) (k k' : Nat) (v : α)
    (h : k ≠ k') : (l ++ [(k', v)]).lookup k = l.lookup k := by
  induction l with
  | nil => rw [List.nil_append, lookup_cons_ne _ _ _ _ h]
  | cons e l ih =>
    obtain ⟨a, b⟩ := e
    by_cases hk : k = a
    · subst hk
      rw [List.cons_append, lookup_cons_self, lookup_cons_self]
    · rw [List.cons_append, lookup_cons_ne _ _ _ _ hk, lookup_cons_ne _ _ _ _ hk, ih]

theorem lookup_append_single_fresh {α : Type} (l : List (Nat × α)) (k : Nat) (v : α)
    (h : l.lookup k = none) : (l ++ [(k, v)]).lookup k = some v := by
  induction l with
  | nil => rw [List.nil_append, lookup_cons_self]
  | cons e l ih =>
    obtain ⟨a, b⟩ := e
    by_cases hk : k = a
    · subst hk
      rw [lookup_cons_self] at h
      cases h
    · rw [lookup_cons_ne _ _ _ _ hk] at h
      rw [List.cons_append, lookup_cons_ne _ _ _ _ hk, ih h]

theorem lookup_filter_ne {α : Type} (l : List (Nat × α)) (k k' : Nat) (h : k ≠ k') :
    (l.filter fun e => e.1 != k').lookup k = l.lookup k := by
  induction l with
  | nil => rfl
  | cons e l ih =>
    obtain ⟨a, b⟩ := e
    by_cases ha : a = k'
    · subst ha
      rw [filter_key_cons_self, ih, lookup_cons_ne _ _ _ _ h]
    · rw [filter_key_cons_ne _ _ _ _ ha]
      by_cases hk : k = a
      · subst hk
        rw [lookup_cons_self, lookup_cons_self]
      · rw [lookup_cons_ne _ _ _ _ hk, lookup_cons_ne _ _ _ _ hk, ih]

theorem lookup_filter_self {α : Type} (l : List (Nat × α)) (k : Nat) :
    (l.filter fun e => e.1 != k).lookup k = none := by
  induction l with
  | nil => rfl
  | cons e l ih =>
    obtain ⟨a, b⟩ := e
    by_cases ha : a = k
    · subst ha
      rw [filter_key_cons_self, ih]
    · rw [filter_key_cons_ne _ _ _ _ ha, lookup_cons_ne _ _ _ _ (Ne.symm ha), ih]

theorem lookup_none_of_keys_lt {α : Type} (l : List (Nat × α)) (n k : Nat)
    (h : ∀ e ∈ l, e.1 < n) (hk : n ≤ k) : l.lookup k = none := by
  induction l with
  | nil => rfl
  | cons e l ih =>
    obtain ⟨a, b⟩ := e
    have ha : a < n := h (a, b) (List.mem_cons_self _ _)
    have hn : k ≠ a := by omega
    rw [lookup_cons_ne _ _ _ _ hn]
    exact ih fun e he => h e (List.mem_cons_of_mem _ he)

theorem keys_filter {α : Type} (l : List (Nat × α)) (k : Nat) :
    (l.filter fun e => e.1 != k).map Prod.fst = (l.map Prod.fst).filter fun a => a != k := by
  induction l with
  | nil => rfl
  | cons e l ih =>
    obtain ⟨a, b⟩ := e
    by_cases ha : a = k
    · subst ha
      rw [filter_key_cons_self, ih, List.map_cons, List.filter_cons_of_neg]
      simp
    · rw [filter_key_cons_ne _ _ _ _ ha, List.map_cons, List.map_cons, ih,
        List.filter_cons_of_pos]
      simpa using ha

theorem filter_key_of_not_mem {α : Type} (l : List (Nat × α)) (k : Nat)
    (h : k ∉ l.map Prod.fst) : (l.filter fun e => e.1 != k) = l := by
  induction l with
  | nil => rfl
  | cons e l ih =>
    obtain ⟨a, b⟩ := e
    have ha : a ≠ k := fun hak => h (by simp [hak])
    have hl : k ∉ l.map Prod.fst := fun hkl => h (by simp at hkl ⊢; exact Or.inr hkl)
    rw [filter_key_cons_ne _ _ _ _ ha, ih hl]

/-! ## The dispatcher's steps -/

theorem finish_eq_ok {ρ σ γ : Type} (c : Codec ρ σ) (d d' : Dispatcher ρ γ) (h : Nat)
    (r : Outcome σ) :
    finish c d h r = .ok d' ↔
      ∃ w record, d.scheduled.lookup h = some w ∧ d.pending.lookup h = some record ∧
        d' = { nextHandle := d.nextHandle
               scheduled := d.scheduled.filter fun e => e.1 != h
               pending := d.pending.filter fun e => e.1 != h
               invocations := d.invocations ++
                 [{ operation := h, callback := record.callback,
                    response_json := c.serialize (resultOf w r), context := record.context }] } := by
  unfold finish
  cases hs : d.scheduled.lookup h with
  | none => simp
  | some w =>
    unfold complete
    cases hp : d.pending.lookup h with
    | none => simp
    | some record =>
      simp
      constructor
      · intro hd
        exact hd.symm
      · intro hd
        exact hd.symm

theorem invocationsOf_append_ne {ρ γ : Type} (d : Dispatcher ρ γ) (h : Nat) (i : Invocation γ)
    (hne : i.operation ≠ h) :
    (d.invocations ++ [i]).filter (fun j => j.operation == h) = invocationsOf d h := by
  unfold invocationsOf
  rw [List.filter_append, List.filter_cons_of_neg, List.filter_nil, List.append_nil]
  simpa using hne

theorem invocationsOf_append_self {ρ γ : Type} (d : Dispatcher ρ γ) (h : Nat) (i : Invocation γ)
    (he : i.operation = h) :
    (d.invocations ++ [i]).filter (fun j => j.operation == h) = invocationsOf d h ++ [i] := by
  unfold invocationsOf
  rw [List.filter_append, List.filter_cons_of_pos, List.filter_nil]
  simpa using he

/-! ## Consistency of the bookkeeping -/

theorem wellFormed_init {ρ γ : Type} : WellFormed (Dispatcher.init : Dispatcher ρ γ) := by
  refine ⟨rfl, List.nodup_nil, ?_, ?_⟩
  · intro k hk
    cases hk
  · intro i hi
    cases hi

theorem wellFormed_fetch_weather {ρ σ γ : Type} (c : Codec ρ σ) (d : Dispatcher ρ γ)
    (request_json : String) (callback : Nat) (context : γ) (hd : WellFormed d) :
    WellFormed (fetch_weather c d request_json callback context) := by
  obtain ⟨hkeys, hnodup, hlt, hinv⟩ := hd
  refine ⟨?_, ?_, ?_, ?_⟩
  · simp only [fetch_weather, List.map_append, List.map_cons, List.map_nil, hkeys]
  · simp only [fetch_weather, List.map_append, List.map_cons, List.map_nil]
    rw [List.nodup_append]
    refine ⟨hnodup, List.nodup_singleton _, ?_⟩
    intro a ha hb
    have h1 := hlt a ha
    simp only [List.mem_singleton] at hb
    omega
  · intro k hk
    simp only [fetch_weather, List.map_append, List.map_cons, List.map_nil, List.mem_append,
      List.mem_singleton] at hk ⊢
    rcases hk with hk | hk
    · have := hlt k hk
      omega
    · omega
  · intro i hi
    have := hinv i hi
    simp only [fetch_weather]
    omega

theorem wellFormed_finish {ρ σ γ : Type} (c : Codec ρ σ) (d d' : Dispatcher ρ γ) (h : Nat)
    (r : Outcome σ) (hd : WellFormed d) (hf : finish c d h r = .ok d') : WellFormed d' := by
  obtain ⟨hkeys, hnodup, hlt, hinv⟩ := hd
  obtain ⟨w, record, hs, hp, rfl⟩ := (finish_eq_ok c d d' h r).mp hf
  have hh : h < d.nextHandle := by
    by_contra hge
    have hnone : d.scheduled.lookup h = none :=
      lookup_none_of_keys_lt d.scheduled d.nextHandle h
        (fun e he => hlt e.1 (List.mem_map_of_mem Prod.fst he)) (by omega)
    rw [hnone] at hs
    cases hs
  refine ⟨?_, ?_, ?_, ?_⟩
  · simp only [keys_filter, hkeys]
  · simp only [keys_filter]
    exact hnodup.filter _
  · intro k hk
    simp only [keys_filter] at hk
    exact hlt k (List.mem_of_mem_filter hk)
  · intro i hi
    simp only [List.mem_append, List.mem_singleton] at hi
    rcases hi with hi | hi
    · exact hinv i hi
    · subst hi
      exact hh

theorem wellFormed_step {ρ σ γ : Type} (c : Codec ρ σ) (d d' : Dispatcher ρ γ) (e : Event σ γ)
    (hd : WellFormed d) (hs : step c d e = .ok d') : WellFormed d' := by
  cases e with
  | submit request_json callback context =>
    simp only [step, Except.ok.injEq] at hs
    subst hs
    exact wellFormed_fetch_weather c d request_json callback context hd
  | finish handle domainResult =>
    exact wellFormed_finish c d d' handle domainResult hd hs

theorem run_cons_ok {ρ σ γ : Type} (c : Codec ρ σ) (d d' : Dispatcher ρ γ) (e : Event σ γ)
    (es : List (Event σ γ)) (h : run c d (e :: es) = .ok d') :
    ∃ d1, step c d e = .ok d1 ∧ run c d1 es = .ok d' := by
  unfold run at h
  cases hs : step c d e with
  | error f =>
    rw [hs] at h
    cases h
  | ok d1 =>
    rw [hs] at h
    exact ⟨d1, rfl, h⟩

theorem wellFormed_run {ρ σ γ : Type} (c : Codec ρ σ) (es : List (Event σ γ))
    (d d' : Dispatcher ρ γ) (hd : WellFormed d) (hr : run c d es = .ok d') : WellFormed d' := by
  induction es generalizing d with
  | nil =>
    simp only [run, Except.ok.injEq] at hr
    subst hr
    exact hd
  | cons e es ih =>
    obtain ⟨d1, hs, hrest⟩ := run_cons_ok c d d' e es hr
    exact ih d1 (wellFormed_step c d d1 e hd hs) hrest

/-! ## One request followed through the dispatcher -/

theorem tracked_fetch_weather_new {ρ σ γ : Type} (c : Codec ρ σ) (d : Dispatcher ρ γ)
    (request_json : String) (callback : Nat) (context : γ) (hd : WellFormed d) :
    Tracked c d.nextHandle callback context (fetch_weather c d request_json callback context)
    ∧ invocationsOf (fetch_weather c d request_json callback context) d.nextHandle = [] := by
  obtain ⟨hkeys, hnodup, hlt, hinv⟩ := hd
  have hs : d.scheduled.lookup d.nextHandle = none :=
    lookup_none_of_keys_lt d.scheduled d.nextHandle d.nextHandle
      (fun e he => hlt e.1 (List.mem_map_of_mem Prod.fst he)) (Nat.le_refl _)
  have hp : d.pending.lookup d.nextHandle = none :=
    lookup_none_of_keys_lt d.pending d.nextHandle d.nextHandle
      (fun e he => hlt e.1 (hkeys ▸ List.mem_map_of_mem Prod.fst he)) (Nat.le_refl _)
  have hi : invocationsOf (fetch_weather c d request_json callback context) d.nextHandle
      = [] := by
    unfold invocationsOf
    rw [List.filter_eq_nil_iff]
    intro i hmem
    have := hinv i hmem
    simp only [beq_iff_eq]
    omega
  refine ⟨⟨?_, Or.inl ?_⟩, hi⟩
  · simp only [fetch_weather]
    omega
  · exact ⟨_, lookup_append_single_fresh d.scheduled d.nextHandle _ hs,
      lookup_append_single_fresh d.pending d.nextHandle _ hp, hi⟩

theorem tracked_fetch_weather {ρ σ γ : Type} (c : Codec ρ σ) (d : Dispatcher ρ γ)
    (h callback : Nat) (context : γ) (request_json' : String) (callback' : Nat) (context' : γ)
    (ht : Tracked c h callback context d) :
    Tracked c h callback context (fetch_weather c d request_json' callback' context') := by
  obtain ⟨hlt, hcase⟩ := ht
  have hne : h ≠ d.nextHandle := by omega
  have hs : ∀ w, (d.scheduled ++ [(d.nextHandle, w)]).lookup h = d.scheduled.lookup h :=
    fun w => lookup_append_single_ne d.scheduled h d.nextHandle w hne
  have hp : ∀ v, (d.pending ++ [(d.nextHandle, v)]).lookup h = d.pending.lookup h :=
    fun v => lookup_append_single_ne d.pending h d.nextHandle v hne
  refine ⟨?_, ?_⟩
  · simp only [fetch_weather]
    omega
  · rcases hcase with ⟨w, h1, h2, h3⟩ | ⟨h1, h2, r, h3⟩
    · refine Or.inl ⟨w, ?_, ?_, h3⟩
      · simp only [fetch_weather]
        rw [hs, h1]
      · simp only [fetch_weather]
        rw [hp, h2]
    · refine Or.inr ⟨?_, ?_, r, h3⟩
      · simp only [fetch_weather]
        rw [hs, h1]
      · simp only [fetch_weather]
        rw [hp, h2]

theorem tracked_finish {ρ σ γ : Type} (c : Codec ρ σ) (d d' : Dispatcher ρ γ)
    (h callback : Nat) (context : γ) (h' : Nat) (r : Outcome σ)
    (ht : Tracked c h callback context d) (hf : finish c d h' r = .ok d') :
    Tracked c h callback context d' := by
  obtain ⟨hlt, hcase⟩ := ht
  obtain ⟨w', record, hs', hp', rfl⟩ := (finish_eq_ok c d d' h' r).mp hf
  refine ⟨hlt, ?_⟩
  by_cases hh : h = h'
  · subst hh
    rcases hcase with ⟨w, h1, h2, h3⟩ | ⟨h1, h2, r', h3⟩
    · refine Or.inr ⟨lookup_filter_self _ _, lookup_filter_self _ _, resultOf w' r, ?_⟩
      rw [h2] at hp'
      cases hp'
      show List.filter _ (d.invocations ++ [_]) = _
      rw [invocationsOf_append_self d h _ rfl, h3]
      rfl
    · rw [h1] at hs'
      cases hs'
  · have hi : ∀ i : Invocation γ, i.operation = h' →
        (d.invocations ++ [i]).filter (fun j => j.operation == h) = invocationsOf d h :=
      fun i hi => invocationsOf_append_ne d h i (by rw [hi]; exact Ne.symm hh)
    rcases hcase with ⟨w, h1, h2, h3⟩ | ⟨h1, h2, r', h3⟩
    · refine Or.inl ⟨w, ?_, ?_, ?_⟩
      · show List.lookup h (List.filter _ d.scheduled) = _
        rw [lookup_filter_ne _ _ _ hh, h1]
      · show List.lookup h (List.filter _ d.pending) = _
        rw [lookup_filter_ne _ _ _ hh, h2]
      · show List.filter _ (d.invocations ++ [_]) = _
        rw [hi _ rfl, h3]
    · refine Or.inr ⟨?_, ?_, r', ?_⟩
      · show List.lookup h (List.filter _ d.scheduled) = _
        rw [lookup_filter_ne _ _ _ hh, h1]
      · show List.lookup h (List.filter _ d.pending) = _
        rw [lookup_filter_ne _ _ _ hh, h2]
      · show List.filter _ (d.invocations ++ [_]) = _
        rw [hi _ rfl, h3]

theorem tracked_run {ρ σ γ : Type} (c : Codec ρ σ) (es : List (Event σ γ))
    (d d' : Dispatcher ρ γ) (h callback : Nat) (context : γ)
    (ht : Tracked c h callback context d) (hr : run c d es = .ok d') :
    Tracked c h callback context d' := by
  induction es generalizing d with
  | nil =>
    simp only [run, Except.ok.injEq] at hr
    subst hr
    exact ht
  | cons e es ih =>
    obtain ⟨d1, hs, hrest⟩ := run_cons_ok c d d' e es hr
    refine ih d1 ?_ hrest
    cases e with
    | submit request_json' callback' context' =>
      simp only [step, Except.ok.injEq] at hs
      subst hs
      exact tracked_fetch_weather c d h callback context request_json' callback' context' ht
    | finish handle domainResult =>
      exact tracked_finish c d d1 h callback context handle domainResult ht hs

theorem finish_of_lookup {ρ σ γ : Type} (c : Codec ρ σ) (d : Dispatcher ρ γ) (h : Nat)
    (r : Outcome σ) (w : Work ρ) (record : PendingRecord γ)
    (hs : d.scheduled.lookup h = some w) (hp : d.pending.lookup h = some record) :
    ∃ d', finish c d h r = .ok d' ∧
      d'.scheduled = (d.scheduled.filter fun e => e.1 != h) ∧
      d'.pending = (d.pending.filter fun e => e.1 != h) := by
  refine ⟨_, (finish_eq_ok c d _ h r).mpr ⟨w, record, hs, hp, rfl⟩, rfl, rfl⟩

theorem drain_runs {ρ σ γ : Type} (c : Codec ρ σ) (oracle : Nat → Outcome σ)
    (ks : List Nat) (d : Dispatcher ρ γ) (hd : WellFormed d)
    (hk : d.scheduled.map Prod.fst = ks) :
    ∃ d', run c d (ks.map fun k => Event.finish k (oracle k)) = .ok d'
      ∧ d'.scheduled = [] ∧ d'.pending = [] := by
  induction ks generalizing d with
  | nil =>
    refine ⟨d, rfl, ?_, ?_⟩
    · exact List.map_eq_nil_iff.mp hk
    · exact List.map_eq_nil_iff.mp (hd.1.trans hk)
  | cons k ks ih =>
    have hkp : d.pending.map Prod.fst = k :: ks := hd.1.trans hk
    obtain ⟨hkeys, hnodup, hlt, hinv⟩ := hd
    cases hsched : d.scheduled with
    | nil =>
      rw [hsched] at hk
      cases hk
    | cons e rest =>
      obtain ⟨a, w⟩ := e
      rw [hsched] at hk
      simp only [List.map_cons, List.cons.injEq] at hk
      obtain ⟨rfl, hrest⟩ := hk
      cases hpend : d.pending with
      | nil =>
        rw [hpend] at hkp
        cases hkp
      | cons e' rest' =>
        obtain ⟨a', record⟩ := e'
        rw [hpend] at hkp
        simp only [List.map_cons, List.cons.injEq] at hkp
        obtain ⟨rfl, hrest'⟩ := hkp
        have hs : d.scheduled.lookup a' = some w := by
          rw [hsched, lookup_cons_self]
        have hp : d.pending.lookup a' = some record := by
          rw [hpend, lookup_cons_self]
        obtain ⟨d1, hf, hs1, hp1⟩ := finish_of_lookup c d a' (oracle a') w record hs hp
        have hwf : WellFormed d1 :=
          wellFormed_finish c d d1 a' (oracle a') ⟨hkeys, hnodup, hlt, hinv⟩ hf
        have hnot : a' ∉ rest.map Prod.fst := by
          rw [hsched] at hnodup
          simp only [List.map_cons, List.nodup_cons] at hnodup
          exact hnodup.1
        have hk1 : d1.scheduled.map Prod.fst = ks := by
          rw [hs1, hsched, filter_key_cons_self, filter_key_of_not_mem _ _ hnot, hrest]
        obtain ⟨d2, hrun, h1, h2⟩ := ih d1 hwf hk1
        refine ⟨d2, ?_, h1, h2⟩
        simp only [List.map_cons, run, step, hf]
        exact hrun

/-! ## Contexts are carried, never inspected -/

theorem lookup_mapContext {γ δ : Type} (f : γ → δ) (l : List (Nat × PendingRecord γ))
    (h : Nat) :
    (l.map fun e => (e.1, e.2.mapContext f)).lookup h
      = (l.lookup h).map (PendingRecord.mapContext f) := by
  induction l with
  | nil => rfl
  | cons e l ih =>
    obtain ⟨a, b⟩ := e
    by_cases hk : h = a
    · subst hk
      rw [List.map_cons, lookup_cons_self, lookup_cons_self]
      rfl
    · rw [List.map_cons, lookup_cons_ne _ _ _ _ hk, lookup_cons_ne _ _ _ _ hk, ih]

theorem filter_mapContext {γ δ : Type} (f : γ → δ) (l : List (Nat × PendingRecord γ))
    (h : Nat) :
    (l.map fun e => (e.1, e.2.mapContext f)).filter (fun e => e.1 != h)
      = (l.filter fun e => e.1 != h).map fun e => (e.1, e.2.mapContext f) := by
  induction l with
  | nil => rfl
  | cons e l ih =>
    obtain ⟨a, b⟩ := e
    by_cases ha : a = h
    · subst ha
      rw [List.map_cons, filter_key_cons_self, filter_key_cons_self, ih]
    · rw [List.map_cons, filter_key_cons_ne _ _ _ _ ha, filter_key_cons_ne _ _ _ _ ha,
        List.map_cons, ih]

theorem fetch_weather_mapContext {ρ σ γ δ : Type} (c : Codec ρ σ) (f : γ → δ)
    (d : Dispatcher ρ γ) (request_json : String) (callback : Nat) (context : γ) :
    (fetch_weather c d request_json callback context).mapContext f
      = fetch_weather c (d.mapContext f) request_json callback (f context) := by
  simp only [fetch_weather, Dispatcher.mapContext, List.map_append, List.map_cons, List.map_nil,
    PendingRecord.mapContext]

theorem finish_mapContext {ρ σ γ δ : Type} (c : Codec ρ σ) (f : γ → δ)
    (d : Dispatcher ρ γ) (h : Nat) (r : Outcome σ) :
    (finish c d h r).map (Dispatcher.mapContext f) = finish c (d.mapContext f) h r := by
  unfold finish
  have hsched : (d.mapContext f).scheduled = d.scheduled := rfl
  rw [hsched]
  cases hs : d.scheduled.lookup h with
  | none => rfl
  | some w =>
    unfold complete
    have hpend : (d.mapContext f).pending = d.pending.map fun e => (e.1, e.2.mapContext f) := rfl
    simp only [hpend, lookup_mapContext]
    cases hp : d.pending.lookup h with
    | none => rfl
    | some record =>
      simp only [Option.map_some', Except.map, Dispatcher.mapContext, List.map_append,
        List.map_cons, List.map_nil, filter_mapContext]
      rfl

theorem step_mapContext {ρ σ γ δ : Type} (c : Codec ρ σ) (f : γ → δ)
    (d : Dispatcher ρ γ) (e : Event σ γ) :
    (step c d e).map (Dispatcher.mapContext f) = step c (d.mapContext f) (e.mapContext f) := by
  cases e with
  | submit request_json callback context =>
    simp only [step, Event.mapContext, Except.map, fetch_weather_mapContext]
  | finish handle domainResult =>
    exact finish_mapContext c f d handle domainResult

theorem drainEvents_eq {ρ σ γ : Type} (oracle : Nat → Outcome σ) (d : Dispatcher ρ γ) :
    (drainEvents oracle d : List (Event σ γ))
      = (d.scheduled.map Prod.fst).map fun k => Event.finish k (oracle k) := by
  simp only [drainEvents, List.map_map]
  rfl

/-! ## Theorems, Part I: what the header decides -/

/-- The embedding `librustyswift_h` prints back to the lines of the header, blanks apart. -/
theorem librustyswift_h_renders_source :
    (librustyswift_h.map fun i => squeeze (renderItem i)) = sourceLines.map squeeze := by
  decide

/-- C5: the header's `fetch_weather` has the shape of `submit_request`: three arguments in
the order request text (a read-only string reference, `const char *`), callback, opaque
context pointer (`void *`), and no return value; the callback type
`ResponseCallbackWithContext`, which the second argument has, takes two arguments in the
order response text (a string reference), opaque context pointer, and returns no value. -/
theorem fetch_weather_has_submit_request_shape :
    ((declaredFunctions librustyswift_h).lookup "fetch_weather").map (entryShape librustyswift_h)
        = some submit_request
    ∧ ((declaredFunctions librustyswift_h).lookup "fetch_weather").map
          (fun sig => (sig.returns, sig.params.map fun p => p.ty))
        = some (.void, [.pointer (.const .char), .typedefName "ResponseCallbackWithContext",
                        .pointer .void])
    ∧ ((declaredFunctions librustyswift_h).lookup "fetch_weather").map
          (fun sig => sig.params.map fun p => readOnlyReference p.ty)
        = some [true, false, false]
    ∧ ((declaredTypedefs librustyswift_h).lookup "ResponseCallbackWithContext").map callbackShape
        = some { args := [.stringReference, .opaquePointer], returnsValue := false }
    ∧ ((declaredTypedefs librustyswift_h).lookup "ResponseCallbackWithContext").map
          (fun sig => (sig.returns, sig.params.map fun p => p.ty))
        = some (.void, [.pointer (.const .char), .pointer .void]) := by
  decide

/-- C4, as stated, fails on the header: it declares no entry point beside `fetch_weather`,
so none that releases a response payload. -/
theorem no_companion_entry_point :
    ¬ ∃ name, name ∈ entryPoints librustyswift_h ∧ name ≠ "fetch_weather" := by
  decide

/-- C4, amended: the boundary interface the header declares has exactly one entry point,
the submit entry point `fetch_weather`; no declared function is handed a response payload
to release. -/
theorem fetch_weather_is_the_only_entry_point :
    entryPoints librustyswift_h = ["fetch_weather"]
    ∧ deallocationEntryPoints librustyswift_h "fetch_weather" = []
    ∧ (declaredTypedefs librustyswift_h).map (fun d => d.1) = ["ResponseCallbackWithContext"] := by
  decide

/-- C8, as stated, fails on the header: no comment of it says how the text payloads are
bounded. -/
theorem bounding_is_not_documented :
    ¬ (documentsBounding librustyswift_h = true
        ∧ requestPayloadType librustyswift_h = responsePayloadType librustyswift_h) := by
  decide

/-- C8, amended: the header declares the request payload of `fetch_weather` and the
response payload of the callback with one and the same type, pointer to const char; its two
signatures have no integer parameter that could carry a length; its comments are the
four-line note that the header is a blueprint of the Rust binary, an empty comment line and
the labels `types` and `weather`, and none of them says how the text payloads are bounded. -/
theorem payloads_share_one_type_without_length :
    requestPayloadType librustyswift_h = some (.pointer (.const .char))
    ∧ responsePayloadType librustyswift_h = some (.pointer (.const .char))
    ∧ (signatures librustyswift_h).map (fun sig => sig.params.map fun p => p.ty)
        = [ [.pointer (.const .char), .typedefName "ResponseCallbackWithContext",
             .pointer .void],
            [.pointer (.const .char), .pointer .void] ]
    ∧ passesLength librustyswift_h = false
    ∧ comments librustyswift_h
        = [ " This header serves as a blueprint for the Rust binary `librustyswift.a`. It",
            " re-defines the public functions and types in `librustyswift.a` in C notation",
            " and makes them callable from Swift. It is important that these definitions",
            " match their Rust counterparts in the `ffi` crate.",
            "",
            " types",
            " weather" ]
    ∧ documentsBounding librustyswift_h = false := by
  decide

/-! ## Theorems, Part II: the dispatcher -/

/-- C1: every call of `fetch_weather` is accepted under a fresh handle with nothing invoked
for it yet; whatever is submitted or finishes afterwards, at most one invocation is ever
made for the request, it is of the supplied callback and carries a serialized success or
error result; while none was made the request's operation can finish, and finishing it
makes the count exactly one; and once every scheduled operation has finished the count is
exactly one. -/
theorem fetch_weather_invokes_callback_exactly_once {ρ σ γ : Type} (c : Codec ρ σ)
    (before : List (Event σ γ)) (d : Dispatcher ρ γ)
    (hd : run c Dispatcher.init before = .ok d)
    (request_json : String) (callback : Nat) (context : γ) :
    invocationsOf (fetch_weather c d request_json callback context) d.nextHandle = []
    ∧ ∀ (after : List (Event σ γ)) (d' : Dispatcher ρ γ),
        run c (fetch_weather c d request_json callback context) after = .ok d' →
        (invocationsOf d' d.nextHandle).length ≤ 1
        ∧ (∀ i ∈ invocationsOf d' d.nextHandle, i.callback = callback ∧
            ((∃ v, i.response_json = c.serialize (.success v))
              ∨ ∃ e, i.response_json = c.serialize (.failure e)))
        ∧ (invocationsOf d' d.nextHandle = [] →
            ∀ r, ∃ d'', finish c d' d.nextHandle r = .ok d''
              ∧ (invocationsOf d'' d.nextHandle).length = 1)
        ∧ (∀ oracle : Nat → Outcome σ, ∃ d'', run c d' (drainEvents oracle d') = .ok d''
              ∧ d''.pending = [] ∧ (invocationsOf d'' d.nextHandle).length = 1) := by
  have hwf : WellFormed d := wellFormed_run c before _ d wellFormed_init hd
  obtain ⟨hnew, hnone⟩ := tracked_fetch_weather_new c d request_json callback context hwf
  refine ⟨hnone, ?_⟩
  intro after d' hrun
  have ht : Tracked c d.nextHandle callback context d' :=
    tracked_run c after _ d' _ _ _ hnew hrun
  have hwf' : WellFormed d' :=
    wellFormed_run c after _ d' (wellFormed_fetch_weather c d _ _ _ hwf) hrun
  have hdrain : ∀ oracle : Nat → Outcome σ, ∃ d'', run c d' (drainEvents oracle d') = .ok d''
      ∧ d''.pending = [] ∧ (invocationsOf d'' d.nextHandle).length = 1 := by
    intro oracle
    obtain ⟨d'', hr, hs, hp⟩ := drain_runs c oracle _ d' hwf' rfl
    rw [← drainEvents_eq] at hr
    refine ⟨d'', hr, hp, ?_⟩
    obtain ⟨_, hcase⟩ := tracked_run c _ d' d'' _ _ _ ht hr
    rcases hcase with ⟨w, h1, _, _⟩ | ⟨_, _, r, h3⟩
    · rw [hs] at h1
      cases h1
    · rw [h3]
      rfl
  obtain ⟨_, hcase⟩ := ht
  rcases hcase with ⟨w, h1, h2, h3⟩ | ⟨h1, h2, r, h3⟩
  · refine ⟨?_, ?_, ?_, hdrain⟩
    · rw [h3]
      exact Nat.zero_le _
    · intro i hi
      rw [h3] at hi
      cases hi
    · intro _ r
      obtain ⟨d'', hf, _, _⟩ := finish_of_lookup c d' d.nextHandle r w _ h1 h2
      refine ⟨d'', hf, ?_⟩
      have ht' : Tracked c d.nextHandle callback context d' :=
        tracked_run c after _ d' _ _ _ hnew hrun
      obtain ⟨_, hcase'⟩ := tracked_finish c d' d'' _ _ _ _ r ht' hf
      rcases hcase' with ⟨w', h1', _, _⟩ | ⟨_, _, r', h3'⟩
      · obtain ⟨w0, record0, _, _, rfl⟩ := (finish_eq_ok c d' d'' _ r).mp hf
        have hgone : List.lookup d.nextHandle
            (List.filter (fun e => e.1 != d.nextHandle) d'.scheduled) = none :=
          lookup_filter_self _ _
        rw [hgone] at h1'
        cases h1'
      · rw [h3']
        rfl
  · refine ⟨?_, ?_, ?_, hdrain⟩
    · rw [h3]
      exact Nat.le_refl _
    · intro i hi
      rw [h3] at hi
      simp only [List.mem_singleton] at hi
      subst hi
      refine ⟨rfl, ?_⟩
      cases r with
      | success v => exact Or.inl ⟨v, rfl⟩
      | failure e => exact Or.inr ⟨e, rfl⟩
    · intro hempty
      rw [h3] at hempty
      cases hempty

/-- C2: the context an invocation for a request is passed is the context supplied to that
call of `fetch_weather`, whatever else is submitted or finishes in between; finishing the
request passes exactly that context; and the dispatcher treats contexts as inert: seeing
every context through any function `f` commutes with every step, so no step depends on
what a context is or refers to, and none alters one. -/
theorem fetch_weather_passes_context_back {ρ σ γ : Type} (c : Codec ρ σ)
    (before : List (Event σ γ)) (d : Dispatcher ρ γ)
    (hd : run c Dispatcher.init before = .ok d)
    (request_json : String) (callback : Nat) (context : γ) :
    (∀ (after : List (Event σ γ)) (d' : Dispatcher ρ γ),
        run c (fetch_weather c d request_json callback context) after = .ok d' →
        ∀ i ∈ invocationsOf d' d.nextHandle, i.context = context)
    ∧ (∀ r, ∃ d', finish c (fetch_weather c d request_json callback context) d.nextHandle r
          = .ok d' ∧ (invocationsOf d' d.nextHandle).map (fun i => i.context) = [context])
    ∧ (∀ (δ : Type) (f : γ → δ) (s : Dispatcher ρ γ) (e : Event σ γ),
        (step c s e).map (Dispatcher.mapContext f)
          = step c (s.mapContext f) (e.mapContext f)) := by
  have hwf : WellFormed d := wellFormed_run c before _ d wellFormed_init hd
  obtain ⟨hnew, hnone⟩ := tracked_fetch_weather_new c d request_json callback context hwf
  refine ⟨?_, ?_, fun δ f s e => step_mapContext c f s e⟩
  · intro after d' hrun i hi
    obtain ⟨_, hcase⟩ := tracked_run c after _ d' _ _ _ hnew hrun
    rcases hcase with ⟨_, _, _, h3⟩ | ⟨_, _, r, h3⟩
    · rw [h3] at hi
      cases hi
    · rw [h3] at hi
      simp only [List.mem_singleton] at hi
      subst hi
      rfl
  · intro r
    have hnew' := hnew
    obtain ⟨_, hcase⟩ := hnew'
    rcases hcase with ⟨w, h1, h2, h3⟩ | ⟨_, _, r', h3⟩
    · obtain ⟨d', hf, _, _⟩ := finish_of_lookup c _ d.nextHandle r w _ h1 h2
      refine ⟨d', hf, ?_⟩
      obtain ⟨_, hcase'⟩ := tracked_finish c _ d' _ _ _ _ r hnew hf
      rcases hcase' with ⟨w', h1', _, _⟩ | ⟨_, _, r', h3'⟩
      · obtain ⟨w0, record0, _, _, rfl⟩ := (finish_eq_ok c _ d' _ r).mp hf
        have hgone : List.lookup d.nextHandle
            (List.filter (fun e => e.1 != d.nextHandle)
              (fetch_weather c d request_json callback context).scheduled) = none :=
          lookup_filter_self _ _
        rw [hgone] at h1'
        cases h1'
      · rw [h3']
        rfl
    · rw [hnone] at h3
      cases h3

/-- Witness of C1: the payload `not-json` submitted to the fresh dispatcher and finished is
answered by one invocation. -/
theorem fetch_weather_invokes_callback_exactly_once_witness :
    run sampleCodec (Dispatcher.init : Dispatcher String Nat) [] = .ok Dispatcher.init
    ∧ run sampleCodec (fetch_weather sampleCodec Dispatcher.init "not-json" 7 42)
        [.finish 0 (.success "sunny")] = .ok sampleAnswered
    ∧ (invocationsOf sampleAnswered 0).length ≤ 1 :=
  ⟨rfl, rfl,
    ((fetch_weather_invokes_callback_exactly_once sampleCodec [] Dispatcher.init rfl
        "not-json" 7 42).2 [.finish 0 (.success "sunny")] sampleAnswered rfl).1⟩

/-- Witness of C2: of two requests in flight at once, the first, finishing last, is
answered with its own context 42. -/
theorem fetch_weather_passes_context_back_witness :
    run sampleCodec (Dispatcher.init : Dispatcher String Nat) [] = .ok Dispatcher.init
    ∧ run sampleCodec (fetch_weather sampleCodec Dispatcher.init seattleRequest 7 42)
        sampleInterleaving = .ok sampleBothAnswered
    ∧ ∀ i ∈ invocationsOf sampleBothAnswered 0, i.context = 42 :=
  ⟨rfl, rfl,
    (fetch_weather_passes_context_back sampleCodec [] Dispatcher.init rfl
        seattleRequest 7 42).1 sampleInterleaving sampleBothAnswered rfl⟩

/-! ## Many requests at once -/

theorem perm_of_lookup {α : Type} (l : List (Nat × α)) (h : Nat) (v : α)
    (hn : (l.map Prod.fst).Nodup) (hl : l.lookup h = some v) :
    l.Perm ((h, v) :: l.filter fun e => e.1 != h) := by
  induction l with
  | nil => cases hl
  | cons e t ih =>
    obtain ⟨a, b⟩ := e
    simp only [List.map_cons, List.nodup_cons] at hn
    by_cases hk : h = a
    · subst hk
      rw [lookup_cons_self] at hl
      cases hl
      rw [filter_key_cons_self, filter_key_of_not_mem _ _ hn.1]
    · rw [lookup_cons_ne _ _ _ _ hk] at hl
      rw [filter_key_cons_ne _ _ _ _ (Ne.symm hk)]
      exact ((ih hn.2 hl).cons (a, b)).trans (List.Perm.swap _ _ _)

theorem run_append_ok {ρ σ γ : Type} (c : Codec ρ σ) (xs ys : List (Event σ γ))
    (d d' : Dispatcher ρ γ) (h : run c d (xs ++ ys) = .ok d') :
    ∃ dm, run c d xs = .ok dm ∧ run c dm ys = .ok d' := by
  induction xs generalizing d with
  | nil => exact ⟨d, rfl, h⟩
  | cons e xs ih =>
    obtain ⟨d1, hs, hrest⟩ := run_cons_ok c d d' e (xs ++ ys) h
    obtain ⟨dm, h1, h2⟩ := ih d1 hrest
    refine ⟨dm, ?_, h2⟩
    simp only [run, hs]
    exact h1

theorem nextHandle_run {ρ σ γ : Type} (c : Codec ρ σ) (es : List (Event σ γ))
    (d d' : Dispatcher ρ γ) (h : run c d es = .ok d') :
    d'.nextHandle = d.nextHandle + (submittedRequests es).length := by
  induction es generalizing d with
  | nil =>
    simp only [run, Except.ok.injEq] at h
    subst h
    rfl
  | cons e es ih =>
    obtain ⟨d1, hs, hrest⟩ := run_cons_ok c d d' e es h
    have h1 := ih d1 hrest
    cases e with
    | submit request_json callback context =>
      simp only [step, Except.ok.injEq] at hs
      subst hs
      simp only [submittedRequests, List.length_cons, fetch_weather] at h1 ⊢
      omega
    | finish handle domainResult =>
      obtain ⟨w, record, _, _, rfl⟩ := (finish_eq_ok c d d1 handle domainResult).mp hs
      simp only [submittedRequests] at h1 ⊢
      exact h1

theorem contexts_step_finish {ρ σ γ : Type} (c : Codec ρ σ) (d d' : Dispatcher ρ γ)
    (h : Nat) (r : Outcome σ) (hwf : WellFormed d) (hf : finish c d h r = .ok d') :
    (passedContexts d' ++ heldContexts d').Perm (passedContexts d ++ heldContexts d) := by
  obtain ⟨w, record, _, hp, rfl⟩ := (finish_eq_ok c d d' h r).mp hf
  have hn : (d.pending.map Prod.fst).Nodup := by
    rw [hwf.1]
    exact hwf.2.1
  have hperm := (perm_of_lookup d.pending h record hn hp).map fun e => e.2.context
  simp only [passedContexts, heldContexts, List.map_append, List.map_cons, List.map_nil,
    List.append_assoc, List.singleton_append]
  exact (hperm.append_left _).symm

theorem contexts_run {ρ σ γ : Type} (c : Codec ρ σ) (es : List (Event σ γ))
    (d d' : Dispatcher ρ γ) (hwf : WellFormed d) (hr : run c d es = .ok d') :
    (passedContexts d' ++ heldContexts d').Perm
      ((passedContexts d ++ heldContexts d)
        ++ (submittedRequests es).map fun q => q.context) := by
  induction es generalizing d with
  | nil =>
    simp only [run, Except.ok.injEq] at hr
    subst hr
    simp only [submittedRequests, List.map_nil, List.append_nil]
    exact List.Perm.refl _
  | cons e es ih =>
    obtain ⟨d1, hs, hrest⟩ := run_cons_ok c d d' e es hr
    have h1 := ih d1 (wellFormed_step c d d1 e hwf hs) hrest
    cases e with
    | submit request_json callback context =>
      simp only [step, Except.ok.injEq] at hs
      subst hs
      simp only [passedContexts, heldContexts, fetch_weather, submittedRequests,
        List.map_append, List.map_cons, List.map_nil, List.append_assoc,
        List.singleton_append] at h1 ⊢
      exact h1
    | finish handle domainResult =>
      simp only [submittedRequests]
      exact h1.trans ((contexts_step_finish c d d1 handle domainResult hwf hs).append_right _)

theorem submittedRequests_finishes {σ γ : Type} (oracle : Nat → Outcome σ) (ks : List Nat) :
    submittedRequests (ks.map fun k => (Event.finish k (oracle k) : Event σ γ)) = [] := by
  induction ks with
  | nil => rfl
  | cons k ks ih =>
    simp only [List.map_cons, submittedRequests]
    exact ih

theorem tracked_of_split {ρ σ γ : Type} (c : Codec ρ σ) (before after : List (Event σ γ))
    (request_json : String) (callback : Nat) (context : γ) (d : Dispatcher ρ γ)
    (hrun : run c Dispatcher.init (before ++ Event.submit request_json callback context :: after)
      = .ok d) :
    Tracked c (submittedRequests before).length callback context d := by
  obtain ⟨dm, hb, ha⟩ := run_append_ok c before _ Dispatcher.init d hrun
  obtain ⟨d1, hs, hrest⟩ := run_cons_ok c dm d _ after ha
  simp only [step, Except.ok.injEq] at hs
  subst hs
  have hwf : WellFormed dm := wellFormed_run c before _ dm wellFormed_init hb
  have hn : dm.nextHandle = (submittedRequests before).length := by
    have := nextHandle_run c before Dispatcher.init dm hb
    simp only [Dispatcher.init, Nat.zero_add] at this
    exact this
  have hnew := (tracked_fetch_weather_new c dm request_json callback context hwf).1
  rw [hn] at hnew
  exact tracked_run c after _ d _ _ _ hnew hrest

/-! ## Theorems, Part II: many requests -/

/-- C9, as stated, fails: two requests submitted with the same context 5 are both answered,
so that context is passed to two callback invocations. -/
theorem shared_context_is_passed_twice :
    run sampleCodec (Dispatcher.init : Dispatcher String Nat) sharedContextEvents
      = .ok sharedContextAnswered
    ∧ (submittedRequests sharedContextEvents).length = 2
    ∧ passedContexts sharedContextAnswered = [5, 5]
    ∧ ¬ (passedContexts sharedContextAnswered).Nodup :=
  ⟨rfl, rfl, rfl, by decide⟩

/-- C9, amended: for every number of requests and every interleaving of their submissions
with completions: at any time each request has at most one invocation, and every invocation
for it carries the callback and the context of its own request; the contexts passed so far
together with those still held in the pending table are, up to order, the contexts
submitted, so no context is passed to more invocations than requests were submitted with
it, and none to more than one when the submitted contexts are pairwise distinct; once every
scheduled operation has finished, each request has exactly one invocation, of its own
callback with its own context, there are as many invocations as requests, and the contexts
passed are, up to order, the contexts submitted. -/
theorem concurrent_requests_answered_once_each {ρ σ γ : Type} (c : Codec ρ σ)
    (es : List (Event σ γ)) (d : Dispatcher ρ γ)
    (hrun : run c Dispatcher.init es = .ok d) :
    (∀ (before : List (Event σ γ)) (request_json : String) (callback : Nat) (context : γ)
        (after : List (Event σ γ)),
        es = before ++ Event.submit request_json callback context :: after →
        (invocationsOf d (submittedRequests before).length).length ≤ 1
        ∧ ∀ i ∈ invocationsOf d (submittedRequests before).length,
            i.callback = callback ∧ i.context = context)
    ∧ (passedContexts d ++ heldContexts d).Perm ((submittedRequests es).map fun q => q.context)
    ∧ (((submittedRequests es).map fun q => q.context).Nodup → (passedContexts d).Nodup)
    ∧ ∀ oracle : Nat → Outcome σ, ∃ d', run c d (drainEvents oracle d) = .ok d'
        ∧ (∀ (before : List (Event σ γ)) (request_json : String) (callback : Nat)
            (context : γ) (after : List (Event σ γ)),
            es = before ++ Event.submit request_json callback context :: after →
            ∃ r, invocationsOf d' (submittedRequests before).length =
              [{ operation := (submittedRequests before).length, callback := callback,
                 response_json := c.serialize r, context := context }])
        ∧ d'.invocations.length = (submittedRequests es).length
        ∧ (passedContexts d').Perm ((submittedRequests es).map fun q => q.context) := by
  have hwf : WellFormed d := wellFormed_run c es _ d wellFormed_init hrun
  have hperm : (passedContexts d ++ heldContexts d).Perm
      ((submittedRequests es).map fun q => q.context) := by
    have := contexts_run c es Dispatcher.init d wellFormed_init hrun
    simpa [passedContexts, heldContexts, Dispatcher.init] using this
  refine ⟨?_, hperm, ?_, ?_⟩
  · intro before request_json callback context after hes
    subst hes
    obtain ⟨_, hcase⟩ := tracked_of_split c before after request_json callback context d hrun
    rcases hcase with ⟨_, _, _, h3⟩ | ⟨_, _, r, h3⟩
    · rw [h3]
      refine ⟨Nat.zero_le _, ?_⟩
      intro i hi
      cases hi
    · rw [h3]
      refine ⟨Nat.le_refl _, ?_⟩
      intro i hi
      simp only [List.mem_singleton] at hi
      subst hi
      exact ⟨rfl, rfl⟩
  · intro hnodup
    have hall : (passedContexts d ++ heldContexts d).Nodup := hperm.nodup_iff.mpr hnodup
    exact (List.nodup_append.mp hall).1
  · intro oracle
    obtain ⟨d', hr, hs, hp⟩ := drain_runs c oracle _ d hwf rfl
    have hctx := contexts_run c _ d d' hwf hr
    rw [submittedRequests_finishes] at hctx
    rw [← drainEvents_eq] at hr
    have hheld : heldContexts d' = [] := by
      simp only [heldContexts, hp, List.map_nil]
    have hperm' : (passedContexts d').Perm ((submittedRequests es).map fun q => q.context) := by
      simp only [hheld, List.map_nil, List.append_nil] at hctx
      exact hctx.trans hperm
    refine ⟨d', hr, ?_, ?_, hperm'⟩
    · intro before request_json callback context after hes
      subst hes
      have ht := tracked_of_split c before after request_json callback context d hrun
      obtain ⟨_, hcase⟩ := tracked_run c _ d d' _ _ _ ht hr
      rcases hcase with ⟨w, h1, _, _⟩ | ⟨_, _, r, h3⟩
      · rw [hs] at h1
        cases h1
      · exact ⟨r, h3⟩
    · have hlen := hperm'.length_eq
      simpa [passedContexts] using hlen

/-- Witness of C9: two requests with contexts 42 and 43, the second finishing first, are
answered with 43 and 42, each once. -/
theorem concurrent_requests_answered_once_each_witness :
    run sampleCodec (Dispatcher.init : Dispatcher String Nat) distinctContextEvents
      = .ok distinctContextAnswered
    ∧ (passedContexts distinctContextAnswered ++ heldContexts distinctContextAnswered).Perm
        ((submittedRequests distinctContextEvents).map fun q => q.context)
    ∧ passedContexts distinctContextAnswered = [43, 42]
    ∧ (submittedRequests distinctContextEvents).map (fun q => q.context) = [42, 43] :=
  ⟨rfl,
    (concurrent_requests_answered_once_each sampleCodec distinctContextEvents
      distinctContextAnswered rfl).2.1,
    rfl, rfl⟩

end RustySwift
